import Mathlib

/-!
Shallow embedding of `src/app/log/result_log.py` (ResultLog): a run-scoped,
append-only, categorized message store with a consolidation pass that collapses
message groups sharing a non-empty `message_id` when the group has more than 10
members.  Python state (the `self._messages` list and the `self.start` process
time cursor) is modelled by explicit state passing; the process-time clock is
an explicit `Nat` argument (nanosecond reading) supplied at each call; the
`raise Exception("Missing message")` in `add` is modelled by an error output
alongside the state at the raise point.
-/

set_option maxHeartbeats 1000000

/-- `class ResultCategory(Enum)` — the four members, in declaration order. -/
inductive ResultCategory
  | DATA_QUALITY
  | DATA_SOURCE
  | DATA_ENTRY
  | INTERNAL
deriving DecidableEq

/-- `cat.value` — the human display label of each enum member. -/
def ResultCategory.value : ResultCategory → String
  | .DATA_QUALITY => "data quality"
  | .DATA_SOURCE => "data source"
  | .DATA_ENTRY => "data entry"
  | .INTERNAL => "internal"

/-- `cat.name` — the machine name of each enum member (the Python identifier). -/
def ResultCategory.name : ResultCategory → String
  | .DATA_QUALITY => "DATA_QUALITY"
  | .DATA_SOURCE => "DATA_SOURCE"
  | .DATA_ENTRY => "DATA_ENTRY"
  | .INTERNAL => "INTERNAL"

/-- `for cat in ResultCategory` — iteration order is declaration order. -/
def ResultCategory.all : List ResultCategory :=
  [.DATA_QUALITY, .DATA_SOURCE, .DATA_ENTRY, .INTERNAL]

/-- `class ResultMessage` with its five slots.  `ms` is the nonnegative
whole-millisecond delta recorded by `add` (see `ResultLog.add`). -/
structure ResultMessage where
  category : ResultCategory
  location : String
  message : String
  ms : Nat
  message_id : String
deriving DecidableEq

/-- `ResultMessage.to_dict` produces this record (field-for-field). -/
structure MessageRecord where
  category : String
  location : String
  message : String
  ms : Nat
  message_id : String
deriving DecidableEq

/-- `def to_dict(self)` — `category` holds the display label `.value`. -/
def ResultMessage.to_dict (x : ResultMessage) : MessageRecord :=
  { category := x.category.value, location := x.location,
    message := x.message, ms := x.ms, message_id := x.message_id }

/-- `class ResultLog`: `loaded_at` (display-only timestamp), `start` (the
process-time cursor, nanoseconds), `_messages` (insertion-ordered). -/
structure ResultLog where
  loaded_at : Nat
  start : Nat
  messages : List ResultMessage
deriving DecidableEq

/-- `ResultLog.__init__` — captures the construction-time clock readings. -/
def ResultLog.init (loadedAt startNs : Nat) : ResultLog :=
  { loaded_at := loadedAt, start := startNs, messages := [] }

/-- `def by_category(self, category)` — the filter comprehension. -/
def ResultLog.by_category (log : ResultLog) (category : ResultCategory) :
    List ResultMessage :=
  log.messages.filter (fun x => x.category = category)

/-- The exception `raise Exception("Missing message")` in `add`; the spec
names it `MissingMessageError`. -/
inductive MissingMessageError
  | missingMessage
deriving DecidableEq

/-- `def add(self, category, location, message, message_id="")`.
`message` is `Option String` (`none` models Python `None`); `now` is the
`time.process_time_ns()` reading at the call.  Returns the state after the
call together with the raised error, if any; on a raise the state is the one
at the raise point (nothing was mutated before it). -/
def ResultLog.add (log : ResultLog) (category : ResultCategory)
    (location : String) (message : Option String) (message_id : String)
    (now : Nat) : ResultLog × Option MissingMessageError :=
  match message with
  | none => (log, some MissingMessageError.missingMessage)
  | some m =>
    let delta_ms := (now - log.start) / 1000000
    ({ log with
        start := now,
        messages := log.messages ++
          [{ category := category, location := location, message := m,
             ms := delta_ms, message_id := message_id }] }, none)

/-- Python dict insertion: `ids.get(k)` / create-on-miss / `items.append(i)`,
modelled on an insertion-ordered association list. -/
def insertIdx (ids : List (String × List Nat)) (k : String) (i : Nat) :
    List (String × List Nat) :=
  match ids with
  | [] => [(k, [i])]
  | (k₀, is) :: rest =>
    if k₀ = k then (k₀, is ++ [i]) :: rest else (k₀, is) :: insertIdx rest k i

/-- The first loop of `consolidate`: `ids[x.message_id].append(i)` for every
message with a non-empty id, indices in increasing order, keys in
first-occurrence order. -/
def buildIds (msgs : List ResultMessage) : List (String × List Nat) :=
  msgs.enum.foldl
    (fun ids p =>
      if p.2.message_id = "" then ids else insertIdx ids p.2.message_id p.1)
    []

/-- In-place update of one list position (`self._messages[idx].message += …`). -/
def modifyIdx (l : List ResultMessage) (i : Nat)
    (f : ResultMessage → ResultMessage) : List ResultMessage :=
  match l, i with
  | [], _ => []
  | x :: rest, 0 => f x :: rest
  | x :: rest, n + 1 => x :: modifyIdx rest n f

/-- The second loop of `consolidate`: for every id group with more than 10
members, append ` and {N-1} more` to the first member's text and collect the
remaining indices into `to_delete`. -/
def applyMerges (msgs : List ResultMessage)
    (ids : List (String × List Nat)) : List ResultMessage × List Nat :=
  ids.foldl
    (fun st e =>
      if e.2.length > 10 then
        match e.2 with
        | [] => st
        | idx :: rest =>
          (modifyIdx st.1 idx
            (fun x =>
              { x with message :=
                  x.message ++ " and " ++ toString (e.2.length - 1) ++ " more" }),
           st.2 ++ rest)
      else st)
    (msgs, [])

/-- `to_delete.sort(reverse=True)` followed by `del self._messages[i]`. -/
def deleteDescending (msgs : List ResultMessage) (to_delete : List Nat) :
    List ResultMessage :=
  (to_delete.mergeSort (fun a b => b ≤ a)).foldl
    (fun l i => l.eraseIdx i) msgs

/-- `def consolidate(self)` — the whole pass. -/
def ResultLog.consolidate (log : ResultLog) : ResultLog :=
  let ids := buildIds log.messages
  let st := applyMerges log.messages ids
  { log with messages := deleteDescending st.1 st.2 }

/-- `def to_json(self)` — the structured export, modelled as the
insertion-ordered key/value pairs of the produced mapping. -/
def ResultLog.to_json (log : ResultLog) : List (String × List MessageRecord) :=
  ResultCategory.all.map
    (fun cat =>
      (cat.name,
       (log.messages.filter (fun x => x.category = cat)).map
         ResultMessage.to_dict))

/-- One row of the DataFrame built by `to_frame` (typed columns). -/
structure FrameRow where
  category : String
  location : String
  message : String
  ms : Nat
deriving DecidableEq

/-- `def to_frame(self)` — fills rows category by category (fixed enumeration
order), each category's messages in insertion order. -/
def ResultLog.to_frame (log : ResultLog) : List FrameRow :=
  ResultCategory.all.foldl
    (fun rows cat =>
      (log.by_category cat).foldl
        (fun rows x =>
          rows ++ [{ category := cat.value.toUpper, location := x.location,
                     message := x.message, ms := x.ms }])
        rows)
    []

/-- `def to_csv(self)` — the tabular export at field granularity: the header
row followed by one row of cells per message (pandas CSV quoting keeps cell
boundaries intact, so the wire format is modelled as the list of cells). -/
def ResultLog.to_csv (log : ResultLog) : List (List String) :=
  ["category", "location", "message", "ms"] ::
    (log.to_frame).map
      (fun r => [r.category, r.location, r.message, Nat.repr r.ms])

/-! ### Derived index bookkeeping used to reason about `consolidate` -/

/-- The (increasing) list of positions of `msgs` whose `message_id` is `k`. -/
def idIndices (msgs : List ResultMessage) (k : String) : List Nat :=
  (msgs.enum.filter (fun p => p.2.message_id = k)).map Prod.fst

/-- How many messages of `msgs` carry `message_id = k` (a group's size). -/
def idCount (msgs : List ResultMessage) (k : String) : Nat :=
  (msgs.filter (fun x => x.message_id = k)).length

/-- Reading the association list built by the first loop of `consolidate`
(`[]` when the key is absent). -/
def lookupIds : List (String × List Nat) → String → List Nat
  | [], _ => []
  | e :: rest, k => if e.1 = k then e.2 else lookupIds rest k

/-- `keepFrom s n l` keeps the elements of `l` whose position (counting from
`n`) is not in `s`: the effect of deleting the positions `s` from `l`. -/
def keepFrom {α : Type _} (s : List Nat) : Nat → List α → List α
  | _, [] => []
  | n, x :: rest =>
      if n ∈ s then keepFrom s (n + 1) rest else x :: keepFrom s (n + 1) rest

/-- The per-group action of the second loop of `consolidate` on the message
list: the text mutation of the group's first member (groups of more than 10
only). -/
def mergeStepMsgs (m : List ResultMessage) (e : String × List Nat) :
    List ResultMessage :=
  if e.2.length > 10 then
    match e.2 with
    | [] => m
    | idx :: _ =>
      modifyIdx m idx
        (fun x =>
          { x with message :=
              x.message ++ " and " ++ toString (e.2.length - 1) ++ " more" })
  else m

/-- The per-group action of the second loop of `consolidate` on `to_delete`:
all of the group's indices except the first (groups of more than 10 only). -/
def mergeStepDels (d : List Nat) (e : String × List Nat) : List Nat :=
  if e.2.length > 10 then d ++ e.2.tail else d

/-- The text mutation applied by `consolidate` to the first message of a
group of `n` members. -/
def suffixMore (n : Nat) (x : ResultMessage) : ResultMessage :=
  { x with message := x.message ++ " and " ++ toString (n - 1) ++ " more" }

/-- The effect of the second loop of `consolidate` on position `p.1` holding
message `p.2`: the first member of each group of more than 10 gets the
summary suffix, everything else is unchanged. -/
def mergeMark (msgs : List ResultMessage) (p : Nat × ResultMessage) :
    ResultMessage :=
  if p.2.message_id ≠ "" ∧ 10 < idCount msgs p.2.message_id ∧
      (idIndices msgs p.2.message_id).head? = some p.1
  then suffixMore (idCount msgs p.2.message_id) p.2
  else p.2

/-- What `consolidate` does with position `p.1` holding message `p.2` of the
original sequence: kept as is, kept with the summary suffix (first member of
a group of more than 10), or deleted (later member of such a group). -/
def conStep (msgs : List ResultMessage) (p : Nat × ResultMessage) :
    Option ResultMessage :=
  if p.2.message_id = "" then some p.2
  else if 10 < idCount msgs p.2.message_id then
    if (idIndices msgs p.2.message_id).head? = some p.1 then
      some (suffixMore (idCount msgs p.2.message_id) p.2)
    else none
  else some p.2

/-- A sequence of successful `add` calls (category, location, message text,
message id, clock reading), folded over the log state. -/
def addAll (log : ResultLog)
    (calls : List (ResultCategory × String × String × String × Nat)) :
    ResultLog :=
  calls.foldl
    (fun lg e => (lg.add e.1 e.2.1 (some e.2.2.1) e.2.2.2.1 e.2.2.2.2).1) log

/-- Number of decimal digits of `n` (1 for `n < 10`). -/
def dLen (n : Nat) : Nat :=
  if n < 10 then 1 else dLen (n / 10) + 1
decreasing_by exact Nat.div_lt_self (by omega) (by omega)

/-- Reading a decimal cell back from the tabular export (the inverse of the
decimal rendering of the `ms` column). -/
def parseNat (s : String) : Nat :=
  s.toList.foldl (fun a c => a * 10 + (c.toNat - 48)) 0

/-- Parsing one data row of the tabular export back into a
(category label, location, message, ms) tuple. -/
def parseRow : List String → Option (String × String × String × Nat)
  | [c, l, m, s] => some (c, l, m, parseNat s)
  | _ => none

/-- A sample message for concrete instantiations. -/
def sampleMsg (c : ResultCategory) (loc msg mid : String) : ResultMessage :=
  { category := c, location := loc, message := msg, ms := 0,
    message_id := mid }

/-- A log holding 11 messages sharing `message_id = "X"` across two
categories, with one empty-id message interleaved. -/
def sampleBig : ResultLog :=
  { loaded_at := 0, start := 0, messages :=
      (List.range 5).map
        (fun i => sampleMsg .DATA_QUALITY "NY" (toString i) "X")
      ++ [sampleMsg .INTERNAL "ZZ" "keep" ""]
      ++ (List.range 6).map
        (fun i => sampleMsg .DATA_SOURCE "TX" (toString i) "X") }

/-- A log holding exactly 10 messages sharing `message_id = "Y"`. -/
def sampleTen : ResultLog :=
  { loaded_at := 0, start := 0, messages :=
      (List.range 10).map
        (fun i => sampleMsg .DATA_ENTRY "FL" (toString i) "Y") }

theorem enumFrom_append_singleton {α : Type _} (l : List α) (x : α) (n : Nat) :
    (l ++ [x]).enumFrom n = l.enumFrom n ++ [(n + l.length, x)] := by
  induction l generalizing n with
  | nil => simp
  | cons y t ih =>
      have harith : n + 1 + t.length = n + (t.length + 1) := by omega
      simp only [List.cons_append, List.enumFrom_cons, ih (n + 1),
        List.length_cons, harith]

theorem enum_append_singleton {α : Type _} (l : List α) (x : α) :
    (l ++ [x]).enum = l.enum ++ [(l.length, x)] := by
  have h := enumFrom_append_singleton l x 0
  simpa [List.enum_eq_enumFrom] using h

theorem idIndices_append (msgs : List ResultMessage) (x : ResultMessage)
    (k : String) :
    idIndices (msgs ++ [x]) k =
      idIndices msgs k ++ if x.message_id = k then [msgs.length] else [] := by
  unfold idIndices
  rw [enum_append_singleton, List.filter_append, List.map_append]
  by_cases h : x.message_id = k <;> simp [h]

theorem idCount_append (msgs : List ResultMessage) (x : ResultMessage)
    (k : String) :
    idCount (msgs ++ [x]) k =
      idCount msgs k + if x.message_id = k then 1 else 0 := by
  unfold idCount
  rw [List.filter_append]
  by_cases h : x.message_id = k <;> simp [h]

theorem buildIds_append (msgs : List ResultMessage) (x : ResultMessage) :
    buildIds (msgs ++ [x]) =
      if x.message_id = "" then buildIds msgs
      else insertIdx (buildIds msgs) x.message_id msgs.length := by
  unfold buildIds
  rw [enum_append_singleton, List.foldl_append]
  simp

theorem lookupIds_insertIdx_self (ids : List (String × List Nat)) (k : String)
    (i : Nat) : lookupIds (insertIdx ids k i) k = lookupIds ids k ++ [i] := by
  induction ids with
  | nil => simp [insertIdx, lookupIds]
  | cons e rest ih =>
      by_cases h : e.1 = k
      · simp [insertIdx, lookupIds, h]
      · simp [insertIdx, lookupIds, h, ih]

theorem lookupIds_insertIdx_ne (ids : List (String × List Nat))
    (k k' : String) (i : Nat) (h : k' ≠ k) :
    lookupIds (insertIdx ids k i) k' = lookupIds ids k' := by
  have h' : k ≠ k' := Ne.symm h
  induction ids with
  | nil => simp [insertIdx, lookupIds, h']
  | cons e rest ih =>
      by_cases he : e.1 = k
      · simp [insertIdx, lookupIds, he, h']
      · by_cases he' : e.1 = k'
        · simp [insertIdx, lookupIds, he, he', h', h]
        · simp [insertIdx, lookupIds, he, he', ih]

theorem lookupIds_buildIds (msgs : List ResultMessage) (k : String)
    (hk : k ≠ "") : lookupIds (buildIds msgs) k = idIndices msgs k := by
  induction msgs using List.reverseRecOn with
  | nil => simp [buildIds, idIndices, lookupIds]
  | append_singleton t x ih =>
      rw [buildIds_append, idIndices_append]
      by_cases hx : x.message_id = ""
      · have hne : x.message_id ≠ k := by
          intro hh; exact hk (hh.symm.trans hx)
        have hne' : ¬("" = k) := by
          intro hh; exact hk hh.symm
        simp [hx, hne, hne', ih]
      · by_cases hxk : x.message_id = k
        · subst hxk
          simp [hx, lookupIds_insertIdx_self, ih]
        · have hkx : k ≠ x.message_id := fun hh => hxk hh.symm
          simp [hx, hxk, lookupIds_insertIdx_ne _ _ _ _ hkx, ih]

theorem fst_mem_insertIdx (ids : List (String × List Nat)) (k : String)
    (i : Nat) (e : String × List Nat) (he : e ∈ insertIdx ids k i) :
    e.1 = k ∨ e ∈ ids := by
  induction ids with
  | nil =>
      simp [insertIdx] at he
      subst he; exact Or.inl rfl
  | cons e₀ rest ih =>
      obtain ⟨k₀, is⟩ := e₀
      by_cases h : k₀ = k
      · subst h
        simp only [insertIdx, if_pos rfl] at he
        rcases List.mem_cons.mp he with h1 | h1
        · subst h1; exact Or.inl rfl
        · exact Or.inr (List.mem_cons_of_mem _ h1)
      · simp only [insertIdx, h, if_neg] at he
        rcases List.mem_cons.mp he with h1 | h1
        · subst h1; exact Or.inr (List.mem_cons_self _ _)
        · rcases ih h1 with h2 | h2
          · exact Or.inl h2
          · exact Or.inr (List.mem_cons_of_mem _ h2)

theorem mem_keys_insertIdx (ids : List (String × List Nat)) (k k' : String)
    (i : Nat) :
    k' ∈ (insertIdx ids k i).map Prod.fst ↔
      k' ∈ ids.map Prod.fst ∨ k' = k := by
  induction ids with
  | nil => simp [insertIdx]
  | cons e rest ih =>
      obtain ⟨k₀, is⟩ := e
      by_cases h : k₀ = k
      · subst h
        rw [show insertIdx ((k₀, is) :: rest) k₀ i = (k₀, is ++ [i]) :: rest
              from by simp [insertIdx]]
        simp only [List.map_cons, List.mem_cons]
        tauto
      · rw [show insertIdx ((k₀, is) :: rest) k i
              = (k₀, is) :: insertIdx rest k i from by simp [insertIdx, h]]
        simp only [List.map_cons, List.mem_cons, ih]
        tauto

theorem nodup_keys_insertIdx (ids : List (String × List Nat)) (k : String)
    (i : Nat) (h : (ids.map Prod.fst).Nodup) :
    ((insertIdx ids k i).map Prod.fst).Nodup := by
  induction ids with
  | nil => simp [insertIdx]
  | cons e rest ih =>
      obtain ⟨k₀, is⟩ := e
      simp only [List.map_cons, List.nodup_cons] at h
      by_cases he : k₀ = k
      · subst he
        rw [show insertIdx ((k₀, is) :: rest) k₀ i = (k₀, is ++ [i]) :: rest
              from by simp [insertIdx]]
        simp only [List.map_cons, List.nodup_cons]
        exact h
      · rw [show insertIdx ((k₀, is) :: rest) k i
              = (k₀, is) :: insertIdx rest k i from by simp [insertIdx, he]]
        simp only [List.map_cons, List.nodup_cons]
        refine ⟨?_, ih h.2⟩
        rw [mem_keys_insertIdx]
        rintro (h1 | h1)
        · exact h.1 h1
        · exact he h1

theorem nodup_keys_buildIds (msgs : List ResultMessage) :
    ((buildIds msgs).map Prod.fst).Nodup := by
  induction msgs using List.reverseRecOn with
  | nil => simp [buildIds]
  | append_singleton t x ih =>
      rw [buildIds_append]
      by_cases hx : x.message_id = ""
      · simpa [hx] using ih
      · simpa [hx] using nodup_keys_insertIdx _ _ _ ih

theorem keys_buildIds_ne_empty (msgs : List ResultMessage)
    (e : String × List Nat) (he : e ∈ buildIds msgs) : e.1 ≠ "" := by
  induction msgs using List.reverseRecOn with
  | nil => simp [buildIds] at he
  | append_singleton t x ih =>
      rw [buildIds_append] at he
      by_cases hx : x.message_id = ""
      · rw [if_pos hx] at he; exact ih he
      · rw [if_neg hx] at he
        rcases fst_mem_insertIdx _ _ _ _ he with h1 | h1
        · rw [h1]; exact hx
        · exact ih h1

theorem lookupIds_of_mem (ids : List (String × List Nat))
    (h : (ids.map Prod.fst).Nodup) (e : String × List Nat) (he : e ∈ ids) :
    lookupIds ids e.1 = e.2 := by
  induction ids with
  | nil => simp at he
  | cons e₀ rest ih =>
      simp only [List.map_cons, List.nodup_cons] at h
      rcases List.mem_cons.mp he with h1 | h1
      · subst h1; simp [lookupIds]
      · have hne : e₀.1 ≠ e.1 := by
          intro hh
          exact h.1 (hh ▸ List.mem_map_of_mem Prod.fst h1)
        simp only [lookupIds, hne, if_neg]
        exact ih h.2 h1

theorem mem_buildIds_eq (msgs : List ResultMessage) (e : String × List Nat)
    (he : e ∈ buildIds msgs) : e.2 = idIndices msgs e.1 := by
  have h1 := lookupIds_of_mem _ (nodup_keys_buildIds msgs) e he
  have h2 := lookupIds_buildIds msgs e.1 (keys_buildIds_ne_empty msgs e he)
  rw [h1] at h2
  exact h2

theorem mem_of_lookupIds_ne (ids : List (String × List Nat)) (k : String)
    (h : lookupIds ids k ≠ []) : (k, lookupIds ids k) ∈ ids := by
  induction ids with
  | nil => simp [lookupIds] at h
  | cons e rest ih =>
      obtain ⟨k₀, is⟩ := e
      by_cases he : k₀ = k
      · subst he
        simp only [lookupIds, if_pos rfl]
        exact List.mem_cons_self _ _
      · simp only [lookupIds, he, if_neg] at h ⊢
        exact List.mem_cons_of_mem _ (ih h)

theorem entry_mem_buildIds (msgs : List ResultMessage) (k : String)
    (hk : k ≠ "") (h : idIndices msgs k ≠ []) :
    (k, idIndices msgs k) ∈ buildIds msgs := by
  have h1 := lookupIds_buildIds msgs k hk
  have h2 := mem_of_lookupIds_ne (buildIds msgs) k (by rw [h1]; exact h)
  rw [h1] at h2
  exact h2

theorem le_fst_of_mem_enumFrom {α : Type _} {l : List α} {n : Nat}
    {p : Nat × α} (h : p ∈ l.enumFrom n) : n ≤ p.1 := by
  induction l generalizing n with
  | nil => simp at h
  | cons x t ih =>
      rcases List.mem_cons.mp h with h1 | h1
      · subst h1; exact Nat.le_refl n
      · exact Nat.le_of_succ_le (ih h1)

theorem pairwise_fst_lt_enumFrom {α : Type _} (l : List α) (n : Nat) :
    (l.enumFrom n).Pairwise (fun p q => p.1 < q.1) := by
  induction l generalizing n with
  | nil => simp
  | cons x t ih =>
      simp only [List.enumFrom_cons, List.pairwise_cons]
      refine ⟨?_, ih (n + 1)⟩
      intro q hq
      exact Nat.lt_of_lt_of_le (Nat.lt_succ_self n) (le_fst_of_mem_enumFrom hq)

theorem idIndices_pairwise (msgs : List ResultMessage) (k : String) :
    (idIndices msgs k).Pairwise (· < ·) := by
  unfold idIndices
  rw [List.pairwise_map]
  exact (pairwise_fst_lt_enumFrom msgs 0).filter _

theorem idIndices_nodup (msgs : List ResultMessage) (k : String) :
    (idIndices msgs k).Nodup :=
  (idIndices_pairwise msgs k).imp Nat.ne_of_lt

theorem mem_idIndices_iff (msgs : List ResultMessage) (k : String) (i : Nat) :
    i ∈ idIndices msgs k ↔ ∃ x, msgs[i]? = some x ∧ x.message_id = k := by
  unfold idIndices
  simp only [List.mem_map, List.mem_filter]
  constructor
  · rintro ⟨p, ⟨hp, hid⟩, hfst⟩
    refine ⟨p.2, ?_, by simpa using hid⟩
    rw [← hfst]
    exact (List.mk_mem_enum_iff_getElem? ).mp (by
      have : (p.1, p.2) = p := rfl
      rw [this]; exact hp)
  · rintro ⟨x, hx, hid⟩
    exact ⟨(i, x), ⟨List.mk_mem_enum_iff_getElem?.mpr hx, by simpa using hid⟩,
      rfl⟩

theorem mem_idIndices_lt (msgs : List ResultMessage) (k : String) (i : Nat)
    (h : i ∈ idIndices msgs k) : i < msgs.length := by
  rcases (mem_idIndices_iff msgs k i).mp h with ⟨x, hx, _⟩
  exact (List.getElem?_eq_some.mp hx).1

theorem idIndices_length (msgs : List ResultMessage) (k : String) :
    (idIndices msgs k).length = idCount msgs k := by
  induction msgs using List.reverseRecOn with
  | nil => simp [idIndices, idCount]
  | append_singleton t x ih =>
      rw [idIndices_append, idCount_append, List.length_append]
      by_cases h : x.message_id = k <;> simp [h, ih]

theorem mem_tail_of_pairwise_lt {l : List Nat} (hl : l.Pairwise (· < ·))
    (i : Nat) : i ∈ l.tail ↔ i ∈ l ∧ l.head? ≠ some i := by
  cases l with
  | nil => simp
  | cons a t =>
      simp only [List.tail_cons, List.head?_cons, List.mem_cons]
      simp only [List.pairwise_cons] at hl
      constructor
      · intro h
        have : a < i := hl.1 i h
        refine ⟨Or.inr h, ?_⟩
        intro hc
        have : a = i := by injection hc
        omega
      · rintro ⟨h1 | h1, h2⟩
        · exact absurd (congrArg some h1.symm) h2
        · exact h1

/-! ### The deletion pass: erasing a strictly descending index list -/

theorem keepFrom_nil_set {α : Type _} (n : Nat) (l : List α) :
    keepFrom [] n l = l := by
  induction l generalizing n with
  | nil => rfl
  | cons x t ih => simp [keepFrom, ih]

theorem keepFrom_congr {α : Type _} (s s' : List Nat)
    (h : ∀ j, j ∈ s ↔ j ∈ s') (n : Nat) (l : List α) :
    keepFrom s n l = keepFrom s' n l := by
  induction l generalizing n with
  | nil => rfl
  | cons x t ih =>
      simp only [keepFrom]
      by_cases hn : n ∈ s
      · rw [if_pos hn, if_pos ((h n).mp hn), ih]
      · rw [if_neg hn, if_neg (fun hc => hn ((h n).mpr hc)), ih]

theorem keepFrom_all_lt {α : Type _} (s : List Nat) (n : Nat) (l : List α)
    (h : ∀ j ∈ s, j < n) : keepFrom s n l = l := by
  induction l generalizing n with
  | nil => rfl
  | cons x t ih =>
      have hn : n ∉ s := fun hc => absurd (h n hc) (Nat.lt_irrefl n)
      simp only [keepFrom, if_neg hn]
      rw [ih (n + 1) (fun j hj => Nat.lt_succ_of_lt (h j hj))]

theorem keepFrom_eraseIdx {α : Type _} (l : List α) (i : Nat)
    (s : List Nat) (n : Nat) (hs : ∀ j ∈ s, j < n + i) :
    keepFrom s n (l.eraseIdx i) = keepFrom ((n + i) :: s) n l := by
  induction l generalizing n i with
  | nil => simp [List.eraseIdx, keepFrom]
  | cons x t ih =>
      cases i with
      | zero =>
          have hs' : ∀ j ∈ s, j < n := by simpa using hs
          rw [List.eraseIdx_cons_zero]
          rw [keepFrom_all_lt s n t hs']
          have hmem : n ∈ (n + 0) :: s := by simp
          simp only [keepFrom, if_pos hmem]
          rw [keepFrom_all_lt ((n + 0) :: s) (n + 1) t]
          intro j hj
          rcases List.mem_cons.mp hj with h1 | h1
          · omega
          · have := hs' j h1; omega
      | succ j =>
          rw [List.eraseIdx_cons_succ]
          have hcond : (n ∈ (n + (j + 1)) :: s) ↔ (n ∈ s) := by
            simp only [List.mem_cons]
            constructor
            · rintro (h1 | h1)
              · omega
              · exact h1
            · exact Or.inr
          have ihs : ∀ m ∈ s, m < (n + 1) + j := by
            intro m hm; have := hs m hm; omega
          have hrec : keepFrom s (n + 1) (t.eraseIdx j)
              = keepFrom ((n + (j + 1)) :: s) (n + 1) t := by
            rw [ih j (n + 1) ihs]
            have harith : (n + 1) + j = n + (j + 1) := by omega
            rw [harith]
          simp only [keepFrom]
          rw [if_congr hcond.symm rfl rfl]
          by_cases hn : n ∈ s
          · rw [if_pos (hcond.mpr hn), if_pos (hcond.mpr hn), hrec]
          · rw [if_neg (fun hc => hn (hcond.mp hc)),
              if_neg (fun hc => hn (hcond.mp hc)), hrec]

theorem foldl_eraseIdx_eq_keepFrom {α : Type _} (td : List Nat)
    (hd : td.Pairwise (· > ·)) (l : List α) :
    td.foldl (fun acc i => acc.eraseIdx i) l = keepFrom td 0 l := by
  induction td generalizing l with
  | nil => simp [keepFrom_nil_set]
  | cons i rest ih =>
      simp only [List.pairwise_cons] at hd
      rw [List.foldl_cons, ih hd.2 (l.eraseIdx i)]
      have := keepFrom_eraseIdx l i rest 0 (by
        intro j hj
        have := hd.1 j hj
        omega)
      simpa using this

theorem keepFrom_eq_filterMap {α : Type _} (s : List Nat) (n : Nat)
    (l : List α) :
    keepFrom s n l =
      (l.enumFrom n).filterMap
        (fun p => if p.1 ∈ s then none else some p.2) := by
  induction l generalizing n with
  | nil => rfl
  | cons x t ih =>
      simp only [keepFrom, List.enumFrom_cons, List.filterMap_cons]
      by_cases hn : n ∈ s
      · simp only [hn, if_pos, ih]
      · simp only [hn, if_neg, ih, not_false_iff]

theorem sortDesc_pairwise_gt (td : List Nat) (h : td.Nodup) :
    (td.mergeSort (fun a b => b ≤ a)).Pairwise (· > ·) := by
  have hsorted := @List.sorted_mergeSort Nat (fun a b => decide (b ≤ a))
    (by intro a b c h1 h2; simp at h1 h2 ⊢; omega)
    (by intro a b; simp; omega) td
  have hnd : (td.mergeSort (fun a b => b ≤ a)).Nodup :=
    (List.mergeSort_perm td _).symm.nodup h
  refine (hsorted.and hnd).imp ?_
  intro a b hab
  rcases hab with ⟨h1, h2⟩
  simp at h1
  omega

theorem mem_sortDesc (td : List Nat) (i : Nat) :
    i ∈ td.mergeSort (fun a b => b ≤ a) ↔ i ∈ td :=
  (List.mergeSort_perm td _).mem_iff

theorem applyMerges_eq (ids : List (String × List Nat)) :
    ∀ (a : List ResultMessage) (b : List Nat),
    ids.foldl
      (fun st e =>
        if e.2.length > 10 then
          match e.2 with
          | [] => st
          | idx :: rest =>
            (modifyIdx st.1 idx
              (fun x =>
                { x with message :=
                    x.message ++ " and " ++ toString (e.2.length - 1) ++ " more" }),
             st.2 ++ rest)
        else st)
      (a, b) = (ids.foldl mergeStepMsgs a, ids.foldl mergeStepDels b) := by
  induction ids with
  | nil => intro a b; rfl
  | cons e rest ih =>
      intro a b
      rw [List.foldl_cons, List.foldl_cons, List.foldl_cons]
      have hstep :
          (if e.2.length > 10 then
              match e.2 with
              | [] => ((a, b) : List ResultMessage × List Nat)
              | idx :: rest₀ =>
                (modifyIdx a idx
                  (fun x =>
                    { x with message :=
                        x.message ++ " and " ++ toString (e.2.length - 1) ++ " more" }),
                 b ++ rest₀)
            else (a, b)) = (mergeStepMsgs a e, mergeStepDels b e) := by
        obtain ⟨k, items⟩ := e
        cases items with
        | nil => simp [mergeStepMsgs, mergeStepDels]
        | cons idx tl =>
            by_cases hbig : 10 < tl.length + 1 <;>
              simp [mergeStepMsgs, mergeStepDels, hbig]
      rw [hstep]
      exact ih _ _

theorem applyMerges_split (msgs : List ResultMessage)
    (ids : List (String × List Nat)) :
    applyMerges msgs ids =
      (ids.foldl mergeStepMsgs msgs, ids.foldl mergeStepDels []) :=
  applyMerges_eq ids msgs []

theorem foldl_mergeStepDels (ids : List (String × List Nat)) :
    ∀ d, ids.foldl mergeStepDels d =
      d ++ (ids.filter (fun e => e.2.length > 10)).flatMap
            (fun e => e.2.tail) := by
  induction ids with
  | nil => intro d; simp
  | cons e rest ih =>
      intro d
      rw [List.foldl_cons]
      by_cases hbig : e.2.length > 10
      · rw [show mergeStepDels d e = d ++ e.2.tail
            from by simp [mergeStepDels, hbig]]
        rw [ih (d ++ e.2.tail)]
        simp [List.filter_cons, hbig]
      · rw [show mergeStepDels d e = d from by simp [mergeStepDels, hbig]]
        rw [ih d]
        simp [List.filter_cons, hbig]

theorem mem_mergeDels (ids : List (String × List Nat)) (i : Nat) :
    i ∈ ids.foldl mergeStepDels [] ↔
      ∃ e ∈ ids, e.2.length > 10 ∧ i ∈ e.2.tail := by
  rw [foldl_mergeStepDels]
  simp only [List.nil_append, List.mem_flatMap, List.mem_filter]
  constructor
  · rintro ⟨e, ⟨he, hbig⟩, hi⟩
    exact ⟨e, he, by simpa using hbig, hi⟩
  · rintro ⟨e, he, hbig, hi⟩
    exact ⟨e, ⟨he, by simpa using hbig⟩, hi⟩

theorem length_modifyIdx (l : List ResultMessage) (i : Nat)
    (f : ResultMessage → ResultMessage) :
    (modifyIdx l i f).length = l.length := by
  induction l generalizing i with
  | nil => rfl
  | cons x t ih =>
      cases i with
      | zero => rfl
      | succ j => simp [modifyIdx, ih]

theorem getElem?_modifyIdx (l : List ResultMessage) (i : Nat)
    (f : ResultMessage → ResultMessage) (j : Nat) :
    (modifyIdx l i f)[j]? = if i = j then l[j]?.map f else l[j]? := by
  induction l generalizing i j with
  | nil => simp [modifyIdx]
  | cons x t ih =>
      cases i with
      | zero =>
          cases j with
          | zero => simp [modifyIdx]
          | succ m => simp [modifyIdx]
      | succ n =>
          cases j with
          | zero => simp [modifyIdx]
          | succ m =>
              simp only [modifyIdx, List.getElem?_cons_succ, ih]
              by_cases h : n = m
              · simp [h]
              · simp [h, fun hc => h (Nat.succ_injective hc)]

theorem getElem?_mergeStepMsgs_ne (m : List ResultMessage)
    (e : String × List Nat) (j : Nat) (h : e.2.head? ≠ some j) :
    (mergeStepMsgs m e)[j]? = m[j]? := by
  obtain ⟨k, items⟩ := e
  cases items with
  | nil => simp [mergeStepMsgs]
  | cons idx tl =>
      have hne : idx ≠ j := by
        intro hc; exact h (by simp [hc])
      by_cases hbig : 10 < tl.length + 1
      · simp only [mergeStepMsgs, List.length_cons, hbig, if_pos,
          gt_iff_lt]
        rw [getElem?_modifyIdx, if_neg hne]
      · simp only [mergeStepMsgs, List.length_cons, gt_iff_lt]
        rw [if_neg hbig]

theorem foldl_mergeStepMsgs_not_target (ids : List (String × List Nat)) :
    ∀ (m : List ResultMessage) (j : Nat),
    (∀ e ∈ ids, ¬(e.2.length > 10 ∧ e.2.head? = some j)) →
    (ids.foldl mergeStepMsgs m)[j]? = m[j]? := by
  induction ids with
  | nil => intro m j _; rfl
  | cons e rest ih =>
      intro m j hyp
      rw [List.foldl_cons]
      rw [ih (mergeStepMsgs m e) j
        (fun e' he' => hyp e' (List.mem_cons_of_mem _ he'))]
      obtain ⟨k, items⟩ := e
      cases items with
      | nil => simp [mergeStepMsgs]
      | cons idx tl =>
          by_cases hbig : 10 < tl.length + 1
          · have hne : ((k, idx :: tl) : String × List Nat).2.head? ≠ some j := by
              intro hc
              exact hyp (k, idx :: tl) (List.mem_cons_self _ _)
                ⟨by simpa using hbig, hc⟩
            exact getElem?_mergeStepMsgs_ne m (k, idx :: tl) j hne
          · simp only [mergeStepMsgs, List.length_cons, gt_iff_lt]
            rw [if_neg hbig]

theorem foldl_mergeStepMsgs_target (ids : List (String × List Nat)) :
    ∀ (m : List ResultMessage) (j : Nat) (e₀ : String × List Nat),
    ids.Pairwise (fun a b => a.2.head? ≠ b.2.head?) →
    e₀ ∈ ids → e₀.2.length > 10 → e₀.2.head? = some j →
    (ids.foldl mergeStepMsgs m)[j]? =
      m[j]?.map (suffixMore e₀.2.length) := by
  induction ids with
  | nil => intro m j e₀ _ he; simp at he
  | cons e rest ih =>
      intro m j e₀ hpw he₀ hbig hhd
      simp only [List.pairwise_cons] at hpw
      rw [List.foldl_cons]
      rcases List.mem_cons.mp he₀ with h1 | h1
      · subst h1
        have hrest : ∀ e' ∈ rest, ¬(e'.2.length > 10 ∧ e'.2.head? = some j) := by
          intro e' he' hc
          exact hpw.1 e' he' (hhd.trans hc.2.symm)
        rw [foldl_mergeStepMsgs_not_target rest (mergeStepMsgs m e₀) j hrest]
        obtain ⟨k, items⟩ := e₀
        cases items with
        | nil => simp at hhd
        | cons idx tl =>
            have hj : idx = j := by simpa using hhd
            subst hj
            have hbig' : 10 < tl.length + 1 := by simpa using hbig
            simp only [mergeStepMsgs, List.length_cons, gt_iff_lt]
            rw [if_pos hbig']
            rw [getElem?_modifyIdx, if_pos rfl]
            rfl
      · have hne : e.2.head? ≠ some j := by
          intro hc
          exact hpw.1 e₀ h1 (hc.trans hhd.symm)
        rw [ih (mergeStepMsgs m e) j e₀ hpw.2 h1 hbig hhd,
          getElem?_mergeStepMsgs_ne m e j hne]

theorem snd_ne_nil_insertIdx (ids : List (String × List Nat)) (k : String)
    (i : Nat) (h : ∀ e ∈ ids, e.2 ≠ []) :
    ∀ e ∈ insertIdx ids k i, e.2 ≠ [] := by
  induction ids with
  | nil =>
      intro e he
      simp [insertIdx] at he
      subst he
      simp
  | cons e₀ rest ih =>
      obtain ⟨k₀, is⟩ := e₀
      intro e he
      by_cases hk : k₀ = k
      · subst hk
        rw [show insertIdx ((k₀, is) :: rest) k₀ i = (k₀, is ++ [i]) :: rest
              from by simp [insertIdx]] at he
        rcases List.mem_cons.mp he with h1 | h1
        · subst h1; simp
        · exact h e (List.mem_cons_of_mem _ h1)
      · rw [show insertIdx ((k₀, is) :: rest) k i
              = (k₀, is) :: insertIdx rest k i from by simp [insertIdx, hk]] at he
        rcases List.mem_cons.mp he with h1 | h1
        · subst h1
          exact h (k₀, is) (List.mem_cons_self _ _)
        · exact ih (fun e' he' => h e' (List.mem_cons_of_mem _ he')) e h1

theorem snd_ne_nil_buildIds (msgs : List ResultMessage) :
    ∀ e ∈ buildIds msgs, e.2 ≠ [] := by
  induction msgs using List.reverseRecOn with
  | nil => intro e he; simp [buildIds] at he
  | append_singleton t x ih =>
      intro e he
      rw [buildIds_append] at he
      by_cases hx : x.message_id = ""
      · rw [if_pos hx] at he; exact ih e he
      · rw [if_neg hx] at he
        exact snd_ne_nil_insertIdx _ _ _ ih e he

theorem heads_pairwise_buildIds (msgs : List ResultMessage) :
    (buildIds msgs).Pairwise (fun a b => a.2.head? ≠ b.2.head?) := by
  have hkeys : (buildIds msgs).Pairwise (fun a b => a.1 ≠ b.1) := by
    have := nodup_keys_buildIds msgs
    rwa [List.Nodup, List.pairwise_map] at this
  refine hkeys.imp_of_mem ?_
  intro a b ha hb hab hc
  have ha2 := mem_buildIds_eq msgs a ha
  have hb2 := mem_buildIds_eq msgs b hb
  have hane := snd_ne_nil_buildIds msgs a ha
  obtain ⟨i, hi⟩ : ∃ i, a.2.head? = some i := by
    cases hha : a.2 with
    | nil => exact absurd hha hane
    | cons y t => exact ⟨y, by simp [hha]⟩
  have hbi : b.2.head? = some i := by rw [← hc, hi]
  have hia : i ∈ idIndices msgs a.1 := by
    rw [← ha2]
    exact List.mem_of_mem_head? hi
  have hib : i ∈ idIndices msgs b.1 := by
    rw [← hb2]
    exact List.mem_of_mem_head? hbi
  rcases (mem_idIndices_iff msgs a.1 i).mp hia with ⟨x, hx, hxa⟩
  rcases (mem_idIndices_iff msgs b.1 i).mp hib with ⟨y, hy, hyb⟩
  rw [hx] at hy
  injection hy with hy
  exact hab (hxa ▸ hy ▸ hyb ▸ rfl)

theorem head_entry_id (msgs : List ResultMessage) (e : String × List Nat)
    (he : e ∈ buildIds msgs) (j : Nat) (hj : e.2.head? = some j) :
    ∃ x, msgs[j]? = some x ∧ x.message_id = e.1 := by
  have h2 := mem_buildIds_eq msgs e he
  have hmem : j ∈ idIndices msgs e.1 := by
    rw [← h2]
    exact List.mem_of_mem_head? hj
  exact (mem_idIndices_iff msgs e.1 j).mp hmem

theorem foldl_mergeStepMsgs_buildIds (msgs : List ResultMessage) :
    (buildIds msgs).foldl mergeStepMsgs msgs =
      msgs.enum.map (mergeMark msgs) := by
  apply List.ext_getElem?
  intro j
  have hrhs : (msgs.enum.map (mergeMark msgs))[j]? =
      msgs[j]?.map (fun a => mergeMark msgs (j, a)) := by
    rw [List.getElem?_map, List.getElem?_enum, Option.map_map]
    rfl
  rw [hrhs]
  cases hx : msgs[j]? with
  | none =>
      have hnt : ∀ e ∈ buildIds msgs, ¬(e.2.length > 10 ∧ e.2.head? = some j) := by
        rintro e he ⟨_, hhd⟩
        rcases head_entry_id msgs e he j hhd with ⟨x, hx', _⟩
        rw [hx] at hx'
        exact Option.noConfusion hx'
      rw [foldl_mergeStepMsgs_not_target _ _ _ hnt, hx]
      rfl
  | some x =>
      by_cases hk : x.message_id = ""
      · have hnt : ∀ e ∈ buildIds msgs, ¬(e.2.length > 10 ∧ e.2.head? = some j) := by
          rintro e he ⟨_, hhd⟩
          rcases head_entry_id msgs e he j hhd with ⟨y, hy, hid⟩
          rw [hx] at hy
          injection hy with hy
          exact keys_buildIds_ne_empty msgs e he (hid ▸ hy ▸ hk)
        rw [foldl_mergeStepMsgs_not_target _ _ _ hnt, hx]
        simp [mergeMark, hk]
      · by_cases hcnt : 10 < idCount msgs x.message_id
        · by_cases hfirst : (idIndices msgs x.message_id).head? = some j
          · -- j is the first index of a big group: the suffix is applied
            have hne : idIndices msgs x.message_id ≠ [] := by
              intro hc
              rw [hc] at hfirst
              exact Option.noConfusion hfirst
            have hent := entry_mem_buildIds msgs x.message_id hk hne
            have hlen : (idIndices msgs x.message_id).length
                = idCount msgs x.message_id := idIndices_length msgs _
            rw [foldl_mergeStepMsgs_target (buildIds msgs) msgs j
              (x.message_id, idIndices msgs x.message_id)
              (heads_pairwise_buildIds msgs) hent
              (by simpa [hlen] using hcnt) (by simpa using hfirst)]
            rw [hx, hlen]
            have hmm : mergeMark msgs (j, x) =
                suffixMore (idCount msgs x.message_id) x := by
              simp [mergeMark, hk, hcnt, hfirst]
            show some (suffixMore (idCount msgs x.message_id) x)
              = some (mergeMark msgs (j, x))
            rw [hmm]
          · -- j is a later index of the group (or its first position is
            -- elsewhere): nothing is applied at j
            have hnt : ∀ e ∈ buildIds msgs,
                ¬(e.2.length > 10 ∧ e.2.head? = some j) := by
              rintro e he ⟨_, hhd⟩
              rcases head_entry_id msgs e he j hhd with ⟨y, hy, hid⟩
              rw [hx] at hy
              injection hy with hy
              subst hy
              have hek : e.1 = x.message_id := hid.symm
              have h2 := mem_buildIds_eq msgs e he
              apply hfirst
              rw [← hek, ← h2]
              exact hhd
            rw [foldl_mergeStepMsgs_not_target _ _ _ hnt, hx]
            simp [mergeMark, hk, hfirst]
        · -- the group has at most 10 members: nothing is applied at j
          have hnt : ∀ e ∈ buildIds msgs,
              ¬(e.2.length > 10 ∧ e.2.head? = some j) := by
            rintro e he ⟨hbig, hhd⟩
            rcases head_entry_id msgs e he j hhd with ⟨y, hy, hid⟩
            rw [hx] at hy
            injection hy with hy
            subst hy
            have h2 := mem_buildIds_eq msgs e he
            apply hcnt
            rw [hid, ← idIndices_length, ← h2]
            exact hbig
          rw [foldl_mergeStepMsgs_not_target _ _ _ hnt, hx]
          simp [mergeMark, hk, hcnt]

theorem idIndices_disjoint (msgs : List ResultMessage) (k k' : String)
    (hne : k ≠ k') (i : Nat) (h : i ∈ idIndices msgs k)
    (h' : i ∈ idIndices msgs k') : False := by
  rcases (mem_idIndices_iff msgs k i).mp h with ⟨x, hx, hxk⟩
  rcases (mem_idIndices_iff msgs k' i).mp h' with ⟨y, hy, hyk⟩
  rw [hx] at hy
  injection hy with hy
  exact hne (hxk ▸ hy ▸ hyk ▸ rfl)

theorem dels_nodup (msgs : List ResultMessage) :
    ((buildIds msgs).foldl mergeStepDels []).Nodup := by
  rw [foldl_mergeStepDels]
  simp only [List.nil_append]
  rw [List.nodup_flatMap]
  constructor
  · intro e he
    have he' : e ∈ buildIds msgs := (List.mem_filter.mp he).1
    have h2 := mem_buildIds_eq msgs e he'
    have hnd : e.2.Nodup := h2 ▸ idIndices_nodup msgs e.1
    exact hnd.sublist (List.tail_sublist e.2)
  · have hkeys : (buildIds msgs).Pairwise (fun a b => a.1 ≠ b.1) := by
      have := nodup_keys_buildIds msgs
      rwa [List.Nodup, List.pairwise_map] at this
    refine (hkeys.filter _).imp_of_mem ?_
    intro a b ha hb hab
    have ha' := (List.mem_filter.mp ha).1
    have hb' := (List.mem_filter.mp hb).1
    have ha2 := mem_buildIds_eq msgs a ha'
    have hb2 := mem_buildIds_eq msgs b hb'
    intro i hia hib
    have hia' : i ∈ idIndices msgs a.1 := by
      rw [← ha2]
      exact (List.tail_sublist a.2).subset hia
    have hib' : i ∈ idIndices msgs b.1 := by
      rw [← hb2]
      exact (List.tail_sublist b.2).subset hib
    exact idIndices_disjoint msgs a.1 b.1 hab i hia' hib'

theorem mem_dels_iff (msgs : List ResultMessage) (j : Nat)
    (x : ResultMessage) (hx : msgs[j]? = some x) :
    j ∈ (buildIds msgs).foldl mergeStepDels [] ↔
      (x.message_id ≠ "" ∧ 10 < idCount msgs x.message_id ∧
        (idIndices msgs x.message_id).head? ≠ some j) := by
  rw [mem_mergeDels]
  constructor
  · rintro ⟨e, he, hbig, hj⟩
    have h2 := mem_buildIds_eq msgs e he
    have hjmem : j ∈ idIndices msgs e.1 := by
      rw [← h2]
      exact (List.tail_sublist e.2).subset hj
    rcases (mem_idIndices_iff msgs e.1 j).mp hjmem with ⟨y, hy, hyk⟩
    rw [hx] at hy
    injection hy with hy
    subst hy
    rw [hyk]
    refine ⟨keys_buildIds_ne_empty msgs e he, ?_, ?_⟩
    · rw [← idIndices_length, ← h2]
      exact hbig
    · have hpw : (idIndices msgs e.1).Pairwise (· < ·) :=
        idIndices_pairwise msgs e.1
      have := (mem_tail_of_pairwise_lt (h2 ▸ hpw) j).mp hj
      rw [h2] at this
      exact this.2
  · rintro ⟨hk, hcnt, hhd⟩
    have hjmem : j ∈ idIndices msgs x.message_id :=
      (mem_idIndices_iff msgs x.message_id j).mpr ⟨x, hx, rfl⟩
    have hne : idIndices msgs x.message_id ≠ [] :=
      List.ne_nil_of_mem hjmem
    refine ⟨(x.message_id, idIndices msgs x.message_id),
      entry_mem_buildIds msgs x.message_id hk hne, ?_, ?_⟩
    · show 10 < (idIndices msgs x.message_id).length
      rw [idIndices_length]
      exact hcnt
    · show j ∈ (idIndices msgs x.message_id).tail
      exact (mem_tail_of_pairwise_lt (idIndices_pairwise msgs _) j).mpr
        ⟨hjmem, hhd⟩

theorem keepFrom_map_enumFrom {α β : Type _} (l : List α) (s : List Nat) :
    ∀ (n : Nat) (g : Nat × α → β),
    keepFrom s n ((l.enumFrom n).map g) =
      (l.enumFrom n).filterMap
        (fun p => if p.1 ∈ s then none else some (g p)) := by
  induction l with
  | nil => intro n g; rfl
  | cons x t ih =>
      intro n g
      simp only [List.enumFrom_cons, List.map_cons, List.filterMap_cons]
      by_cases hn : n ∈ s
      · simp only [keepFrom, hn, if_pos, ih (n + 1) g]
      · simp only [keepFrom, hn, if_neg, not_false_iff, ih (n + 1) g]

/-- The master characterization of `consolidate`: the resulting message list
is a single order-preserving pass over the original sequence applying
`conStep` at every position. -/
theorem consolidate_messages (log : ResultLog) :
    (log.consolidate).messages =
      log.messages.enum.filterMap (conStep log.messages) := by
  show deleteDescending (applyMerges log.messages (buildIds log.messages)).1
      (applyMerges log.messages (buildIds log.messages)).2 = _
  rw [applyMerges_split]
  unfold deleteDescending
  set msgs := log.messages with hmsgs
  set dels := (buildIds msgs).foldl mergeStepDels [] with hdels
  rw [foldl_eraseIdx_eq_keepFrom _ (sortDesc_pairwise_gt dels (dels_nodup msgs)) _]
  rw [keepFrom_congr _ dels (fun j => mem_sortDesc dels j) _ _]
  rw [foldl_mergeStepMsgs_buildIds]
  rw [show msgs.enum = msgs.enumFrom 0 from rfl]
  rw [keepFrom_map_enumFrom msgs dels 0 (mergeMark msgs)]
  apply List.filterMap_congr
  intro p hp
  obtain ⟨j, x⟩ := p
  have hx : msgs[j]? = some x := List.mk_mem_enum_iff_getElem?.mp hp
  by_cases hk : x.message_id = ""
  · have hnd : j ∉ dels := by
      rw [hdels, mem_dels_iff msgs j x hx]
      rintro ⟨hc, _, _⟩
      exact hc hk
    simp [hnd, mergeMark, conStep, hk]
  · by_cases hcnt : 10 < idCount msgs x.message_id
    · by_cases hfirst : (idIndices msgs x.message_id).head? = some j
      · have hnd : j ∉ dels := by
          rw [hdels, mem_dels_iff msgs j x hx]
          rintro ⟨_, _, hc⟩
          exact hc hfirst
        simp [hnd, mergeMark, conStep, hk, hcnt, hfirst]
      · have hnd : j ∈ dels := by
          rw [hdels, mem_dels_iff msgs j x hx]
          exact ⟨hk, hcnt, hfirst⟩
        simp [hnd, conStep, hk, hcnt, hfirst]
    · have hnd : j ∉ dels := by
        rw [hdels, mem_dels_iff msgs j x hx]
        rintro ⟨_, hc, _⟩
        exact hcnt hc
      simp [hnd, mergeMark, conStep, hk, hcnt]

theorem filterMap_enumFrom_snd {α β : Type _} (l : List α) :
    ∀ (n : Nat) (F : α → Option β),
    (l.enumFrom n).filterMap (fun p => F p.2) = l.filterMap F := by
  induction l with
  | nil => intro n F; rfl
  | cons x t ih =>
      intro n F
      simp only [List.enumFrom_cons, List.filterMap_cons]
      cases F x <;> simp [ih (n + 1) F]

theorem filterMap_guard_id (l : List ResultMessage) (k : String) :
    l.filterMap (fun x => if x.message_id = k then some x else none)
      = l.filter (fun x => x.message_id = k) := by
  induction l with
  | nil => rfl
  | cons x t ih =>
      simp only [List.filterMap_cons, List.filter_cons]
      by_cases h : x.message_id = k <;> simp [h, ih]

theorem filter_eq_filterMap_idIndices (msgs : List ResultMessage)
    (k : String) :
    msgs.filter (fun x => x.message_id = k)
      = (idIndices msgs k).filterMap (fun i => msgs[i]?) := by
  induction msgs using List.reverseRecOn with
  | nil => simp [idIndices]
  | append_singleton t x ih =>
      rw [List.filter_append, idIndices_append, List.filterMap_append]
      have hleft : (idIndices t k).filterMap (fun i => (t ++ [x])[i]?)
          = (idIndices t k).filterMap (fun i => t[i]?) := by
        apply List.filterMap_congr
        intro i hi
        rw [List.getElem?_append_left (mem_idIndices_lt t k i hi)]
      rw [hleft, ← ih]
      by_cases h : x.message_id = k
      · simp only [h, if_pos]
        simp [List.filter_cons, h, List.getElem?_concat_length]
      · simp only [h, if_neg, not_false_iff]
        simp [List.filter_cons, h]

theorem filterMap_enumFrom_none {α β : Type _} (l : List α) :
    ∀ (n : Nat) (G : Nat × α → Option β),
    (∀ p ∈ l.enumFrom n, G p = none) →
    (l.enumFrom n).filterMap G = [] := by
  induction l with
  | nil => intro n G _; rfl
  | cons x t ih =>
      intro n G hG
      simp only [List.enumFrom_cons, List.filterMap_cons]
      rw [hG (n, x) (List.mem_cons_self _ _)]
      exact ih (n + 1) G (fun p hp => hG p (List.mem_cons_of_mem _ hp))

theorem filterMap_enumFrom_single {α β : Type _} (l : List α) :
    ∀ (n j : Nat) (x : α) (G : Nat × α → Option β),
    n ≤ j → l[j - n]? = some x →
    (∀ p, (G p).isSome → p.1 = j) →
    (l.enumFrom n).filterMap G = (G (j, x)).toList := by
  induction l with
  | nil => intro n j x G _ hx _; simp at hx
  | cons y t ih =>
      intro n j x G hnj hx hG
      simp only [List.enumFrom_cons, List.filterMap_cons]
      by_cases hn : n = j
      · subst hn
        have hxy : x = y := by
          rw [Nat.sub_self] at hx
          simp at hx
          exact hx.symm
        subst hxy
        have hrest : (t.enumFrom (n + 1)).filterMap G = [] := by
          apply filterMap_enumFrom_none
          intro p hp
          cases hGp : G p with
          | none => rfl
          | some b =>
              have h1 : n + 1 ≤ p.1 := le_fst_of_mem_enumFrom hp
              have h2 : p.1 = n := hG p (by rw [hGp]; rfl)
              omega
        rw [hrest]
        cases hGn : G (n, x) <;> simp [hGn]
      · have hlt : n < j := Nat.lt_of_le_of_ne hnj hn
        have hGn : G (n, y) = none := by
          cases hGy : G (n, y) with
          | none => rfl
          | some b =>
              have := hG (n, y) (by rw [hGy]; rfl)
              simp at this
              omega
        rw [hGn]
        have harith : j - n = (j - (n + 1)) + 1 := by omega
        rw [harith] at hx
        simp only [List.getElem?_cons_succ] at hx
        exact ih (n + 1) j x G (by omega) hx hG

/-- After `consolidate`, the subsequence of messages carrying id `k` is
unchanged when `k` is empty or its group has at most 10 members. -/
theorem filter_consolidate_keep (log : ResultLog) (k : String)
    (h : k = "" ∨ idCount log.messages k ≤ 10) :
    (log.consolidate).messages.filter (fun x => x.message_id = k)
      = log.messages.filter (fun x => x.message_id = k) := by
  rw [consolidate_messages, List.filter_filterMap]
  set msgs := log.messages with hmsgs
  have hcongr : ∀ p ∈ msgs.enum,
      (conStep msgs p).filter (fun y => y.message_id = k)
        = (fun q : Nat × ResultMessage =>
            if q.2.message_id = k then some q.2 else none) p := by
    intro p hp
    obtain ⟨j, x⟩ := p
    by_cases hxk : x.message_id = k
    · have hsome : conStep msgs (j, x) = some x := by
        rcases h with h | h
        · simp [conStep, hxk, h]
        · by_cases hk0 : x.message_id = ""
          · simp [conStep, hk0]
          · have : ¬(10 < idCount msgs x.message_id) := by
              rw [hxk]; omega
            simp [conStep, hk0, this]
      rw [hsome]
      simp [Option.filter, hxk]
    · have hid : ∀ y, conStep msgs (j, x) = some y → y.message_id = x.message_id := by
        intro y hy
        by_cases hk0 : x.message_id = ""
        · simp [conStep, hk0] at hy
          rw [← hy]
        · by_cases hc : 10 < idCount msgs x.message_id
          · by_cases hf : (idIndices msgs x.message_id).head? = some j
            · simp [conStep, hk0, hc, hf] at hy
              rw [← hy]
              rfl
            · simp [conStep, hk0, hc, hf] at hy
          · simp [conStep, hk0, hc] at hy
            rw [← hy]
      cases hcs : conStep msgs (j, x) with
      | none => simp [hxk]
      | some y =>
          have := hid y hcs
          simp [Option.filter, hxk, this]
  rw [List.filterMap_congr hcongr]
  rw [show msgs.enum = msgs.enumFrom 0 from rfl]
  rw [filterMap_enumFrom_snd msgs 0
    (fun x => if x.message_id = k then some x else none)]
  exact filterMap_guard_id msgs k

/-- After `consolidate`, a group with a non-empty id and more than 10 members
is reduced to exactly its first-inserted message with the summary suffix. -/
theorem filter_consolidate_big (log : ResultLog) (k : String)
    (hk : k ≠ "") (hcnt : 10 < idCount log.messages k) :
    ∃ x₀, (log.messages.filter (fun x => x.message_id = k)).head? = some x₀ ∧
      (log.consolidate).messages.filter (fun x => x.message_id = k)
        = [suffixMore (idCount log.messages k) x₀] := by
  set msgs := log.messages with hmsgs
  have hne : idIndices msgs k ≠ [] := by
    intro hc
    have := idIndices_length msgs k
    rw [hc] at this
    simp at this
    omega
  obtain ⟨j, tl, hjtl⟩ : ∃ j tl, idIndices msgs k = j :: tl := by
    cases hidx : idIndices msgs k with
    | nil => exact absurd hidx hne
    | cons j tl => exact ⟨j, tl, rfl⟩
  have hjmem : j ∈ idIndices msgs k := by rw [hjtl]; exact List.mem_cons_self _ _
  rcases (mem_idIndices_iff msgs k j).mp hjmem with ⟨x₀, hx₀, hx₀k⟩
  have hhead : (msgs.filter (fun x => x.message_id = k)).head? = some x₀ := by
    rw [filter_eq_filterMap_idIndices, hjtl]
    simp [List.filterMap_cons, hx₀]
  refine ⟨x₀, hhead, ?_⟩
  rw [consolidate_messages, List.filter_filterMap]
  have hfirst : (idIndices msgs k).head? = some j := by rw [hjtl]; rfl
  have hcongr : ∀ p ∈ msgs.enum,
      (conStep msgs p).filter (fun y => y.message_id = k)
        = (fun q : Nat × ResultMessage =>
            if q.2.message_id = k ∧ (idIndices msgs k).head? = some q.1
            then some (suffixMore (idCount msgs k) q.2) else none) p := by
    intro p hp
    obtain ⟨j', x⟩ := p
    by_cases hxk : x.message_id = k
    · have hk0 : x.message_id ≠ "" := by rw [hxk]; exact hk
      have hc : 10 < idCount msgs x.message_id := by rw [hxk]; exact hcnt
      by_cases hf : (idIndices msgs x.message_id).head? = some j'
      · have hf' : (idIndices msgs k).head? = some j' := by rw [← hxk]; exact hf
        simp [conStep, hk0, hc, hf, Option.filter, suffixMore, hxk, hf', hk,
          hcnt]
      · have hf' : ¬((idIndices msgs k).head? = some j') := by
          rw [← hxk]; exact hf
        simp [conStep, hk0, hc, hf, hxk, hf', hk, hcnt]
    · have hid : ∀ y, conStep msgs (j', x) = some y → y.message_id = x.message_id := by
        intro y hy
        by_cases hk0 : x.message_id = ""
        · simp [conStep, hk0] at hy
          rw [← hy]
        · by_cases hc : 10 < idCount msgs x.message_id
          · by_cases hf : (idIndices msgs x.message_id).head? = some j'
            · simp [conStep, hk0, hc, hf] at hy
              rw [← hy]
              rfl
            · simp [conStep, hk0, hc, hf] at hy
          · simp [conStep, hk0, hc] at hy
            rw [← hy]
      cases hcs : conStep msgs (j', x) with
      | none => simp [hxk]
      | some y =>
          have := hid y hcs
          simp [Option.filter, hxk, this]
  rw [List.filterMap_congr hcongr]
  rw [show msgs.enum = msgs.enumFrom 0 from rfl]
  rw [filterMap_enumFrom_single msgs 0 j x₀ _ (Nat.zero_le j)
    (by simpa using hx₀)
    (by
      intro p hp
      by_cases hc : p.2.message_id = k ∧ (idIndices msgs k).head? = some p.1
      · have := hc.2
        rw [hfirst] at this
        injection this with h
        exact h.symm
      · simp only [if_neg hc] at hp
        exact absurd hp (by simp))]
  rw [if_pos ⟨hx₀k, hfirst⟩]
  rfl

/-- The group sizes after `consolidate`: collapsed groups shrink to 1, all
others keep their size. -/
theorem idCount_consolidate (log : ResultLog) (k : String) (hk : k ≠ "") :
    idCount (log.consolidate).messages k
      = if 10 < idCount log.messages k then 1 else idCount log.messages k := by
  by_cases hcnt : 10 < idCount log.messages k
  · rcases filter_consolidate_big log k hk hcnt with ⟨x₀, _, hfil⟩
    rw [if_pos hcnt]
    show (List.filter _ _).length = 1
    rw [hfil]
    rfl
  · rw [if_neg hcnt]
    show (List.filter _ _).length = _
    rw [filter_consolidate_keep log k (Or.inr (by omega))]
    rfl

/-- A consolidation pass over a log none of whose non-empty-id groups exceeds
10 members changes nothing. -/
theorem consolidate_messages_of_small (log : ResultLog)
    (h : ∀ k, k ≠ "" → idCount log.messages k ≤ 10) :
    (log.consolidate).messages = log.messages := by
  rw [consolidate_messages]
  have hcongr : ∀ p ∈ log.messages.enum,
      conStep log.messages p = some p.2 := by
    intro p hp
    by_cases hk0 : p.2.message_id = ""
    · simp [conStep, hk0]
    · have := h p.2.message_id hk0
      have hnc : ¬(10 < idCount log.messages p.2.message_id) := by omega
      simp [conStep, hk0, hnc]
  rw [List.filterMap_congr hcongr]
  rw [show log.messages.enum = log.messages.enumFrom 0 from rfl]
  rw [filterMap_enumFrom_snd log.messages 0 some]
  exact List.filterMap_some _

theorem consolidate_start (log : ResultLog) :
    (log.consolidate).start = log.start := rfl

theorem consolidate_loaded_at (log : ResultLog) :
    (log.consolidate).loaded_at = log.loaded_at := rfl

theorem resultLog_ext (l₁ l₂ : ResultLog) (h1 : l₁.loaded_at = l₂.loaded_at)
    (h2 : l₁.start = l₂.start) (h3 : l₁.messages = l₂.messages) : l₁ = l₂ := by
  cases l₁
  cases l₂
  simp only at h1 h2 h3
  rw [h1, h2, h3]

theorem digitChar_toNat (d : Nat) (h : d < 10) :
    (Nat.digitChar d).toNat = 48 + d := by
  interval_cases d <;> rfl

theorem dLen_small (n : Nat) (h : n < 10) : dLen n = 1 := by
  rw [dLen, if_pos h]

theorem dLen_large (n : Nat) (h : ¬n < 10) : dLen n = dLen (n / 10) + 1 := by
  rw [dLen, if_neg h]

theorem toDigitsCore_foldl (f : Nat) :
    ∀ (n a : Nat) (ds : List Char), n < f →
    (Nat.toDigitsCore 10 f n ds).foldl
        (fun acc c => acc * 10 + (c.toNat - 48)) a
      = ds.foldl (fun acc c => acc * 10 + (c.toNat - 48))
          (a * 10 ^ dLen n + n) := by
  induction f with
  | zero => intro n a ds h; omega
  | succ f ih =>
      intro n a ds h
      by_cases hn : n / 10 = 0
      · have hsmall : n < 10 := by omega
        have hmod : n % 10 = n := Nat.mod_eq_of_lt hsmall
        show (Nat.toDigitsCore 10 (f + 1) n ds).foldl _ a = _
        rw [show Nat.toDigitsCore 10 (f + 1) n ds
            = Nat.digitChar (n % 10) :: ds from by
          simp [Nat.toDigitsCore, hn]]
        rw [List.foldl_cons, digitChar_toNat (n % 10) (Nat.mod_lt n (by omega)),
          hmod, dLen_small n hsmall]
        have : a * 10 + (48 + n - 48) = a * 10 ^ 1 + n := by
          rw [Nat.pow_one]
          omega
        rw [this]
      · have hbigger : ¬(n < 10) := by omega
        have hdivlt : n / 10 < n := Nat.div_lt_self (by omega) (by omega)
        rw [show Nat.toDigitsCore 10 (f + 1) n ds
            = Nat.toDigitsCore 10 f (n / 10) (Nat.digitChar (n % 10) :: ds)
          from by simp [Nat.toDigitsCore, hn]]
        rw [ih (n / 10) a (Nat.digitChar (n % 10) :: ds) (by omega)]
        rw [List.foldl_cons, digitChar_toNat (n % 10) (Nat.mod_lt n (by omega))]
        rw [dLen_large n hbigger]
        have harith :
            (a * 10 ^ dLen (n / 10) + n / 10) * 10 + (48 + n % 10 - 48)
              = a * 10 ^ (dLen (n / 10) + 1) + n := by
          rw [Nat.pow_succ]
          have hdm : 10 * (n / 10) + n % 10 = n := Nat.div_add_mod n 10
          set P := 10 ^ dLen (n / 10)
          have hmul : a * (P * 10) = a * P * 10 := by ring
          omega
        rw [harith]

theorem parseNat_repr (n : Nat) : parseNat (Nat.repr n) = n := by
  show (Nat.repr n).toList.foldl _ 0 = n
  rw [show (Nat.repr n).toList = Nat.toDigits 10 n from rfl]
  show (Nat.toDigitsCore 10 (n + 1) n []).foldl _ 0 = n
  rw [toDigitsCore_foldl (n + 1) n 0 [] (Nat.lt_succ_self n)]
  simp

theorem foldl_append_map {α β : Type _} (l : List α) (f : α → β) :
    ∀ init : List β,
    l.foldl (fun rows x => rows ++ [f x]) init = init ++ l.map f := by
  induction l with
  | nil => intro init; simp
  | cons x t ih =>
      intro init
      rw [List.foldl_cons, ih (init ++ [f x])]
      simp

theorem to_frame_eq (log : ResultLog) :
    log.to_frame = ResultCategory.all.flatMap
      (fun cat => (log.by_category cat).map
        (fun x => ({ category := cat.value.toUpper, location := x.location,
                     message := x.message, ms := x.ms } : FrameRow))) := by
  show ResultCategory.all.foldl _ [] = _
  have hgen : ∀ (cats : List ResultCategory) (init : List FrameRow),
      cats.foldl
        (fun rows cat =>
          (log.by_category cat).foldl
            (fun rows x =>
              rows ++ [{ category := cat.value.toUpper, location := x.location,
                         message := x.message, ms := x.ms }])
            rows)
        init
      = init ++ cats.flatMap
          (fun cat => (log.by_category cat).map
            (fun x => ({ category := cat.value.toUpper, location := x.location,
                         message := x.message, ms := x.ms } : FrameRow))) := by
    intro cats
    induction cats with
    | nil => intro init; simp
    | cons cat rest ih =>
        intro init
        rw [List.foldl_cons, foldl_append_map, ih]
        simp
  rw [hgen ResultCategory.all []]
  simp

theorem length_filter_categories (msgs : List ResultMessage) :
    (ResultCategory.all.flatMap
      (fun cat => msgs.filter (fun x => x.category = cat))).length
      = msgs.length := by
  induction msgs with
  | nil => simp [ResultCategory.all]
  | cons x t ih =>
      simp only [ResultCategory.all, List.flatMap_cons, List.flatMap_nil,
        List.append_nil, List.length_append] at ih ⊢
      cases hx : x.category <;>
        simp [List.filter_cons, hx] <;> omega

/-! ### The claims -/

/-- C1: for every log in which some non-empty `message_id` `m` is shared by
more than 10 messages, `consolidate()` keeps only the first (lowest original
index) message of that group, appends the literal suffix
` and {N-1} more` to that kept message's text, and removes every other
message of the group; the kept message's `category` and `location` (and every
field except `message`) are those of the first-inserted occurrence. -/
theorem c1_consolidate_collapses_big_groups (log : ResultLog) (m : String)
    (hm : m ≠ "") (hN : 10 < idCount log.messages m) :
    ∃ x₀, (log.messages.filter (fun x => x.message_id = m)).head? = some x₀ ∧
      (log.consolidate).messages.filter (fun x => x.message_id = m) =
        [{ x₀ with message :=
            x₀.message ++ " and " ++
              toString (idCount log.messages m - 1) ++ " more" }] := by
  rcases filter_consolidate_big log m hm hN with ⟨x₀, h1, h2⟩
  exact ⟨x₀, h1, h2⟩

theorem c1_witness :
    ∃ x₀, (sampleBig.messages.filter (fun x => x.message_id = "X")).head?
        = some x₀ ∧
      (sampleBig.consolidate).messages.filter (fun x => x.message_id = "X") =
        [{ x₀ with message :=
            x₀.message ++ " and " ++
              toString (idCount sampleBig.messages "X" - 1) ++ " more" }] :=
  c1_consolidate_collapses_big_groups sampleBig "X" (by decide) (by decide)

/-- C2: every group sharing a non-empty `message_id` with 10 or fewer members
is left fully intact by `consolidate()`: the subsequence of its messages
afterwards equals the original one (nothing removed, nothing modified); the
merge threshold is strictly greater than 10. -/
theorem c2_consolidate_keeps_small_groups (log : ResultLog) (k : String)
    (hk : k ≠ "") (hN : idCount log.messages k ≤ 10) :
    (log.consolidate).messages.filter (fun x => x.message_id = k)
      = log.messages.filter (fun x => x.message_id = k) :=
  filter_consolidate_keep log k (Or.inr hN)

theorem c2_witness :
    (sampleTen.consolidate).messages.filter (fun x => x.message_id = "Y")
      = sampleTen.messages.filter (fun x => x.message_id = "Y") :=
  c2_consolidate_keeps_small_groups sampleTen "Y" (by decide) (by decide)

/-- C3: `consolidate()` never modifies or removes a message whose
`message_id` is empty (their subsequence is unchanged), every empty-id
position is passed through as-is by the per-position action `conStep`, and
the whole result is a single order-preserving pass over the original
sequence (`enum.filterMap`), so the relative order of all surviving messages
is exactly the original one. -/
theorem c3_consolidate_preserves_empty_ids_and_order (log : ResultLog) :
    (log.consolidate).messages.filter (fun x => x.message_id = "")
        = log.messages.filter (fun x => x.message_id = "") ∧
      (log.consolidate).messages
        = log.messages.enum.filterMap (conStep log.messages) ∧
      ∀ p ∈ log.messages.enum, p.2.message_id = "" →
        conStep log.messages p = some p.2 := by
  refine ⟨filter_consolidate_keep log "" (Or.inl rfl),
    consolidate_messages log, ?_⟩
  intro p _ h
  simp [conStep, h]

/-- C6: consolidation groups messages by `message_id` alone, independent of
category: the group size is invariant under any remapping of categories, and
when a non-empty id's group exceeds 10 members (its categories may differ),
the messages are merged into the single surviving first-occurrence message,
which keeps the first occurrence's category. -/
theorem c6_grouping_ignores_category (log : ResultLog) (m : String)
    (f : ResultCategory → ResultCategory)
    (hm : m ≠ "") (hN : 10 < idCount log.messages m) :
    idCount (log.messages.map (fun x => { x with category := f x.category })) m
        = idCount log.messages m ∧
      ∃ x₀, (log.messages.filter (fun x => x.message_id = m)).head? = some x₀ ∧
        (log.consolidate).messages.filter (fun x => x.message_id = m) =
          [{ x₀ with message :=
              x₀.message ++ " and " ++
                toString (idCount log.messages m - 1) ++ " more" }] ∧
        ∀ y ∈ (log.consolidate).messages.filter (fun x => x.message_id = m),
          y.category = x₀.category := by
  constructor
  · show (List.filter _ (List.map _ _)).length = _
    rw [List.filter_map, List.length_map]
    rfl
  · rcases filter_consolidate_big log m hm hN with ⟨x₀, h1, h2⟩
    refine ⟨x₀, h1, h2, ?_⟩
    intro y hy
    rw [h2] at hy
    rcases List.mem_cons.mp hy with h3 | h3
    · rw [h3]
      rfl
    · simp at h3

theorem c6_witness :
    idCount (sampleBig.messages.map
        (fun x => { x with category := (fun _ => ResultCategory.INTERNAL) x.category })) "X"
        = idCount sampleBig.messages "X" ∧
      ∃ x₀, (sampleBig.messages.filter (fun x => x.message_id = "X")).head?
          = some x₀ ∧
        (sampleBig.consolidate).messages.filter (fun x => x.message_id = "X") =
          [{ x₀ with message :=
              x₀.message ++ " and " ++
                toString (idCount sampleBig.messages "X" - 1) ++ " more" }] ∧
        ∀ y ∈ (sampleBig.consolidate).messages.filter
            (fun x => x.message_id = "X"),
          y.category = x₀.category :=
  c6_grouping_ignores_category sampleBig "X" (fun _ => ResultCategory.INTERNAL)
    (by decide) (by decide)

/-- C10: `consolidate()` is idempotent: a second call right after the first
changes nothing, because after one pass every non-empty-id group has size at
most 10 (collapsed groups shrink to 1, the others are untouched). -/
theorem c10_consolidate_idempotent (log : ResultLog) :
    (log.consolidate).consolidate = log.consolidate := by
  refine resultLog_ext _ _ ?_ ?_ ?_
  · rfl
  · rfl
  apply consolidate_messages_of_small
  intro k hk
  rw [idCount_consolidate log k hk]
  by_cases h : 10 < idCount log.messages k
  · rw [if_pos h]
    omega
  · rw [if_neg h]
    omega

/-- C4: `add` raises `MissingMessageError` exactly when `message` is
null/absent (the empty string is accepted and appended), and on a raise the
log is completely unchanged: the returned state is the original one, with no
partial append; a successful call appends exactly one message carrying the
given text. -/
theorem c4_add_missing_message (log : ResultLog) (c : ResultCategory)
    (loc mid : String) (now : Nat) :
    (∀ message : Option String,
        (log.add c loc message mid now).2
            = some MissingMessageError.missingMessage ↔ message = none) ∧
      log.add c loc none mid now
        = (log, some MissingMessageError.missingMessage) ∧
      ∀ m : String, (log.add c loc (some m) mid now).2 = none ∧
        ∃ msg, (log.add c loc (some m) mid now).1.messages
            = log.messages ++ [msg] ∧ msg.message = m := by
  refine ⟨?_, rfl, ?_⟩
  · intro message
    cases message <;> simp [ResultLog.add]
  · intro m
    exact ⟨rfl, ⟨_, rfl, rfl⟩⟩

theorem addAll_length (calls : List (ResultCategory × String × String × String × Nat)) :
    ∀ log : ResultLog,
    (addAll log calls).messages.length = log.messages.length + calls.length := by
  induction calls with
  | nil => intro log; rfl
  | cons e rest ih =>
      intro log
      show (addAll ((log.add e.1 e.2.1 (some e.2.2.1) e.2.2.2.1 e.2.2.2.2).1)
        rest).messages.length = _
      rw [ih]
      show (log.messages ++ [_]).length + rest.length = _
      simp
      omega

/-- C5: after any sequence of N successful `add` calls the log holds exactly
N more messages, and `by_category c` returns, in original insertion order,
exactly the subsequence of messages whose category is `c` (it is a pure
function of the log state, so repeated calls agree). -/
theorem c5_add_length_by_category (log : ResultLog)
    (calls : List (ResultCategory × String × String × String × Nat)) :
    (addAll log calls).messages.length
        = log.messages.length + calls.length ∧
      ∀ cat : ResultCategory,
        (addAll log calls).by_category cat
            = (addAll log calls).messages.filter
                (fun x => x.category = cat) ∧
          ((addAll log calls).by_category cat).Sublist
            (addAll log calls).messages ∧
          ∀ x ∈ (addAll log calls).by_category cat, x.category = cat := by
  refine ⟨addAll_length calls log, ?_⟩
  intro cat
  refine ⟨rfl, List.filter_sublist _, ?_⟩
  intro x hx
  have := (List.mem_filter.mp hx).2
  simpa using this

/-- C7: for every log state, the structured export has exactly the 4
top-level keys, one per category machine name in declaration order; each key
maps to the ordered list of that category's records (fields: display-label
`category`, `location`, `message`, `ms`, `message_id`); categories with no
messages map to an empty list. -/
theorem c7_to_json_structure (log : ResultLog) :
    (log.to_json).map Prod.fst
        = ["DATA_QUALITY", "DATA_SOURCE", "DATA_ENTRY", "INTERNAL"] ∧
      (log.to_json).length = 4 ∧
      (∀ cat : ResultCategory,
        (log.to_json).lookup cat.name
          = some ((log.by_category cat).map ResultMessage.to_dict)) ∧
      (∀ cat : ResultCategory, log.by_category cat = [] →
        (log.to_json).lookup cat.name = some []) ∧
      ∀ x : ResultMessage, (ResultMessage.to_dict x).category
        = x.category.value := by
  have hlookup : ∀ cat : ResultCategory,
      (log.to_json).lookup cat.name
        = some ((log.by_category cat).map ResultMessage.to_dict) := by
    intro cat
    cases cat <;> rfl
  refine ⟨rfl, rfl, hlookup, ?_, fun x => rfl⟩
  intro cat h
  rw [hlookup cat, h]
  rfl

/-- C8: the tabular export has header row `category,location,message,ms`,
one data row per message, and parsing the data rows back yields exactly the
(upper-cased category label, location, message, ms) tuples obtained by
flattening `by_category` over the four categories in fixed enumeration
order, each category's messages in insertion order. -/
theorem c8_to_csv_roundtrip (log : ResultLog) :
    (log.to_csv).head? = some ["category", "location", "message", "ms"] ∧
      (log.to_csv).length = 1 + log.messages.length ∧
      (log.to_csv).tail.map parseRow =
        (ResultCategory.all.flatMap
          (fun cat => (log.by_category cat).map
            (fun x => (cat.value.toUpper, x.location, x.message, x.ms)))).map
          some := by
  refine ⟨rfl, ?_, ?_⟩
  · show ((log.to_frame).map _).length + 1 = _
    rw [List.length_map, to_frame_eq]
    have hlen : (ResultCategory.all.flatMap
        (fun cat => (log.by_category cat).map
          (fun x => ({ category := cat.value.toUpper, location := x.location,
                       message := x.message, ms := x.ms } : FrameRow)))).length
        = (ResultCategory.all.flatMap
            (fun cat => log.messages.filter
              (fun x => x.category = cat))).length := by
      simp [ResultCategory.all, ResultLog.by_category]
    rw [hlen, length_filter_categories]
    omega
  · have htail : (log.to_csv).tail = (log.to_frame).map
        (fun r => [r.category, r.location, r.message, Nat.repr r.ms]) := rfl
    rw [htail, List.map_map, to_frame_eq, List.map_flatMap, List.map_flatMap]
    have hfun : ∀ cat : ResultCategory,
        (((log.by_category cat).map
            (fun x => ({ category := cat.value.toUpper, location := x.location,
                         message := x.message, ms := x.ms } : FrameRow))).map
          (parseRow ∘ fun r => [r.category, r.location, r.message, Nat.repr r.ms]))
        = (((log.by_category cat).map
            (fun x => (cat.value.toUpper, x.location, x.message, x.ms))).map
          some) := by
      intro cat
      rw [List.map_map, List.map_map]
      apply List.map_congr_left
      intro x _
      show parseRow [cat.value.toUpper, x.location, x.message, Nat.repr x.ms]
        = some (cat.value.toUpper, x.location, x.message, x.ms)
      simp [parseRow, parseNat_repr]
    simp only [ResultCategory.all, List.flatMap_cons, List.flatMap_nil,
      List.append_nil]
    rw [hfun .DATA_QUALITY, hfun .DATA_SOURCE, hfun .DATA_ENTRY,
      hfun .INTERNAL]

/-- C9: a successful `add` records `elapsed_ms` as the clock delta since the
previous `add` (or since construction for the first call), converted to
whole milliseconds by truncation (the two bound conjuncts), as a natural
number (hence ≥ 0 under the monotone process-time clock, `start ≤ now`), and
resets the cursor to the current reading, so the next `add` measures only
its own interval, never cumulatively from the start. -/
theorem c9_add_elapsed_truncated_delta (log : ResultLog)
    (c : ResultCategory) (loc m mid : String) (t₁ : Nat)
    (h₁ : log.start ≤ t₁) :
    (∀ la t₀ : Nat, (ResultLog.init la t₀).start = t₀) ∧
      (log.add c loc (some m) mid t₁).2 = none ∧
      (log.add c loc (some m) mid t₁).1.start = t₁ ∧
      ∃ msg₁, (log.add c loc (some m) mid t₁).1.messages
          = log.messages ++ [msg₁] ∧
        msg₁.ms = (t₁ - log.start) / 1000000 ∧
        msg₁.ms * 1000000 ≤ t₁ - log.start ∧
        t₁ - log.start < msg₁.ms * 1000000 + 1000000 ∧
        ∀ (c₂ : ResultCategory) (loc₂ m₂ mid₂ : String) (t₂ : Nat),
          ∃ msg₂,
            ((log.add c loc (some m) mid t₁).1.add c₂ loc₂ (some m₂) mid₂
                t₂).1.messages
              = (log.add c loc (some m) mid t₁).1.messages ++ [msg₂] ∧
            msg₂.ms = (t₂ - t₁) / 1000000 := by
  refine ⟨fun la t₀ => rfl, rfl, rfl, ⟨_, rfl, rfl, ?_, ?_, ?_⟩⟩
  · dsimp only
    have h := Nat.div_add_mod (t₁ - log.start) 1000000
    omega
  · dsimp only
    have h := Nat.div_add_mod (t₁ - log.start) 1000000
    have h2 : (t₁ - log.start) % 1000000 < 1000000 :=
      Nat.mod_lt _ (by omega)
    omega
  · intro c₂ loc₂ m₂ mid₂ t₂
    exact ⟨_, rfl, rfl⟩

theorem c9_witness :
    (∀ la t₀ : Nat, (ResultLog.init la t₀).start = t₀) ∧
      ((ResultLog.init 7 1000).add ResultCategory.DATA_QUALITY "NY"
          (some "hello") "" 4000999).2 = none ∧
      ((ResultLog.init 7 1000).add ResultCategory.DATA_QUALITY "NY"
          (some "hello") "" 4000999).1.start = 4000999 ∧
      ∃ msg₁, ((ResultLog.init 7 1000).add ResultCategory.DATA_QUALITY "NY"
            (some "hello") "" 4000999).1.messages
          = (ResultLog.init 7 1000).messages ++ [msg₁] ∧
        msg₁.ms = (4000999 - (ResultLog.init 7 1000).start) / 1000000 ∧
        msg₁.ms * 1000000 ≤ 4000999 - (ResultLog.init 7 1000).start ∧
        4000999 - (ResultLog.init 7 1000).start
          < msg₁.ms * 1000000 + 1000000 ∧
        ∀ (c₂ : ResultCategory) (loc₂ m₂ mid₂ : String) (t₂ : Nat),
          ∃ msg₂,
            (((ResultLog.init 7 1000).add ResultCategory.DATA_QUALITY "NY"
                  (some "hello") "" 4000999).1.add c₂ loc₂ (some m₂) mid₂
                t₂).1.messages
              = ((ResultLog.init 7 1000).add ResultCategory.DATA_QUALITY "NY"
                  (some "hello") "" 4000999).1.messages ++ [msg₂] ∧
            msg₂.ms = (t₂ - 4000999) / 1000000 :=
  c9_add_elapsed_truncated_delta (ResultLog.init 7 1000)
    ResultCategory.DATA_QUALITY "NY" "hello" "" 4000999 (by decide)
